import Mathlib

/-!
Verification of the DeepSeek V3 function-call detector
(`python/sglang/srt/function_call/deepseekv3_detector.py`).

Text is embedded as `List Char`.  Python string primitives (`in`, `find`,
`replace`, `strip`, slicing) are translated below, and the two regular
expressions of the detector are translated into explicit leftmost-match
scanning functions with the same semantics on the concrete patterns used
by the source.  All recursion is structural or fuel-based so that every
definition reduces inside the kernel.
-/

set_option maxRecDepth 10000

abbrev Str := List Char

/-- Python `needle in haystack` / `str.find`: index of the first occurrence
of `pat` in `s`, scanning left to right. -/
def findSubAux (pat : Str) : Str → Option Nat
  | [] => if pat.isEmpty then some 0 else none
  | c :: rest =>
    if pat.isPrefixOf (c :: rest) then some 0
    else (findSubAux pat rest).map (· + 1)

/-- Python `str.find`: first index of `pat` in `s`, or `none`. -/
def findSub (pat s : Str) : Option Nat := findSubAux pat s

/-- Python `pat in s`. -/
def containsSub (pat s : Str) : Bool := (findSub pat s).isSome

/-- Python `str.replace(pat, rep)` with nonempty `pat`: replace
non-overlapping occurrences left to right; fuel-based so it reduces. -/
def replaceAllGo (pat rep : Str) : Nat → Str → Str
  | 0, s => s
  | _, [] => []
  | fuel + 1, c :: rest =>
    if pat.isPrefixOf (c :: rest) then
      rep ++ replaceAllGo pat rep fuel (List.drop (pat.length - 1) rest)
    else
      c :: replaceAllGo pat rep fuel rest

/-- Python `str.replace(pat, rep)`. -/
def replaceAll (pat rep s : Str) : Str :=
  if pat.isEmpty then s else replaceAllGo pat rep s.length s

/-- Python `str.strip()`: drop leading and trailing whitespace.  The
whitespace set is `Char.isWhitespace` (space, tab, carriage return,
newline); Python additionally strips a few rarer characters (vertical tab,
form feed, Unicode spaces) that no input below contains. -/
def stripStr (s : Str) : Str :=
  List.rdropWhile Char.isWhitespace (s.dropWhile Char.isWhitespace)

/-- The marker tokens of the DeepSeek V3 dialect (source lines 48-55). -/
def bot_token : Str := "<｜tool▁calls▁begin｜>".data

def eot_token : Str := "<｜tool▁calls▁end｜>".data

def call_begin_token : Str := "<｜tool▁call▁begin｜>".data

def call_end_token : Str := "<｜tool▁call▁end｜>".data

def sep_token : Str := "<｜tool▁sep｜>".data

def fence_token : Str := "```".data

/-- Position where Python regex `$` first matches (end of string, or just
before a final newline), as used with `re.DOTALL` and no `re.MULTILINE`. -/
def dollarPos (s : Str) : Nat :=
  if s.getLast? = some '\n' then s.length - 1 else s.length

/-- Stop position of the lazy scan `.*?(?:<end token>|$)` that starts at
`start`: the first position at or after `start` where the call-end token
matches (it is tried first), else where `$` matches.  Returns the
position and whether the token (rather than `$`) matched there. -/
def lazyScanStop (s : Str) (start : Nat) : Nat × Bool :=
  let pd := if start ≤ dollarPos s then dollarPos s else s.length
  match findSub call_end_token (s.drop start) with
  | some j => if start + j ≤ pd then (start + j, true) else (pd, false)
  | none => (pd, false)

/-- Attempt to match the detector's call pattern starting exactly at index
`i`: the literal `bot_token ++ call_begin_token`, a nonempty name made of
characters other than `<` and `｜`, the literal separator, then the
arguments.  With `needCe = true` (the one-shot regex, source line 53) the
arguments run to the first call-end token, which must exist; with
`needCe = false` (the streaming regex, source line 136) they run to the
lookahead `(?=<call end>|$)`.  Returns `(name, raw arguments)`. -/
def matchAt (s : Str) (i : Nat) (needCe : Bool) : Option (Str × Str) :=
  if (bot_token ++ call_begin_token).isPrefixOf (s.drop i) then
    let p := i + (bot_token ++ call_begin_token).length
    let nameRun := (s.drop p).takeWhile (fun c => c != '<' && c != '｜')
    if nameRun.isEmpty then none
    else
      let q := p + nameRun.length
      if sep_token.isPrefixOf (s.drop q) then
        let astart := q + sep_token.length
        if needCe then
          match findSub call_end_token (s.drop astart) with
          | some j => some (nameRun, (s.drop astart).take j)
          | none => none
        else
          some (nameRun, (s.drop astart).take ((lazyScanStop s astart).1 - astart))
      else none
  else none

/-- Leftmost-match search (`re.search`): try each start position in order. -/
def searchFrom (s : Str) (needCe : Bool) : Nat → Nat → Option (Str × Str)
  | 0, _ => none
  | fuel + 1, i =>
    match matchAt s i needCe with
    | some r => some r
    | none => if i < s.length then searchFrom s needCe fuel (i + 1) else none

/-- `re.search` of the detector's call pattern over the whole text. -/
def searchCall (s : Str) (needCe : Bool) : Option (Str × Str) :=
  searchFrom s needCe (s.length + 1) 0

/-- End position of the leftmost match of the buffer-trimming pattern
`bot cb .*? (call_end | $)` (source lines 209-214), or `none` when the
literal prefix occurs nowhere. -/
def trimMatchEnd (s : Str) : Option Nat :=
  match findSub (bot_token ++ call_begin_token) s with
  | none => none
  | some i =>
    let p := i + (bot_token ++ call_begin_token).length
    let stop := lazyScanStop s p
    some (if stop.2 then stop.1 + call_end_token.length else stop.1)

/-- Skip JSON insignificant whitespace. -/
def skipWs (s : Str) : Str :=
  s.dropWhile (fun c => c == ' ' || c == '\n' || c == '\t' || c == '\r')

/-- Parse a JSON string body after the opening quote, producing the
canonically re-escaped body; supports the escapes `\" \\ \/ \n \t \r`. -/
def canonStringBody : Str → Option (Str × Str)
  | [] => none
  | '"' :: rest => some ([], rest)
  | '\\' :: e :: rest =>
    (match e with
     | '"' => some ('\\' :: '"' :: [])
     | '\\' => some ('\\' :: '\\' :: [])
     | '/' => some ('/' :: [])
     | 'n' => some ('\\' :: 'n' :: [])
     | 't' => some ('\\' :: 't' :: [])
     | 'r' => some ('\\' :: 'r' :: [])
     | _ => none).bind
      (fun out =>
        (canonStringBody rest).map (fun pr : Str × Str => (out ++ pr.1, pr.2)))
  | '\\' :: [] => none
  | c :: rest =>
    if c = '\n' ∨ c = '\t' ∨ c = '\r' then none
    else (canonStringBody rest).map (fun pr => (c :: pr.1, pr.2))

/-- Parse the digits of a JSON integer (no leading zero unless "0"). -/
def canonDigits (s : Str) : Option (Str × Str) :=
  let ds := s.takeWhile Char.isDigit
  if ds.isEmpty then none
  else if ds.length > 1 ∧ ds.headI = '0' then none
  else some (ds, s.drop ds.length)

/--
Modelled from the spec: the assumed general-purpose JSON primitive
(spec section 1, non-goals: "assume one is available as a primitive
returning success/failure plus the parsed value").  `json.loads` composed
with `json.dumps(..., ensure_ascii=False)` is modelled as a single
canonicalising scan: parse one JSON value and emit its canonical
serialisation with Python's default separators (`", "` and `": "`).
`mode 0` parses a value, `mode 1` the members of an object after its `{`,
`mode 2` the items of an array after its `[`.  Numbers are modelled as
integers and `\u`, `\b`, `\f` escapes are not modelled; the claims below
only evaluate it on inputs where it agrees with Python `json`.
-/
def canonGo : Nat → Nat → Str → Option (Str × Str)
  | 0, _, _ => none
  | fuel + 1, mode, s =>
    if mode = 1 then
      -- object members: string key, colon, value, then `,` or `}`
      match skipWs s with
      | '"' :: rest =>
        (canonStringBody rest).bind (fun kp =>
          match skipWs kp.2 with
          | ':' :: rest2 =>
            (canonGo fuel 0 rest2).bind (fun vp =>
              let piece := '"' :: kp.1 ++ '"' :: ':' :: ' ' :: vp.1
              match skipWs vp.2 with
              | ',' :: rest3 =>
                (canonGo fuel 1 rest3).map (fun mp =>
                  (piece ++ ',' :: ' ' :: mp.1, mp.2))
              | '\x7d' :: rest3 => some (piece, rest3)
              | _ => none)
          | _ => none)
      | _ => none
    else if mode = 2 then
      -- array items: value, then `,` or `]`
      (canonGo fuel 0 s).bind (fun vp =>
        match skipWs vp.2 with
        | ',' :: rest2 =>
          (canonGo fuel 2 rest2).map (fun ip => (vp.1 ++ ',' :: ' ' :: ip.1, ip.2))
        | ']' :: rest2 => some (vp.1, rest2)
        | _ => none)
    else
      match skipWs s with
      | '\x7b' :: rest =>
        (match skipWs rest with
         | '\x7d' :: rest2 => some ('\x7b' :: '\x7d' :: [], rest2)
         | _ =>
           (canonGo fuel 1 rest).map (fun mp =>
             ('\x7b' :: mp.1 ++ '\x7d' :: [], mp.2)))
      | '[' :: rest =>
        (match skipWs rest with
         | ']' :: rest2 => some ('[' :: ']' :: [], rest2)
         | _ =>
           (canonGo fuel 2 rest).map (fun ip =>
             ('[' :: ip.1 ++ ']' :: [], ip.2)))
      | '"' :: rest =>
        (canonStringBody rest).map (fun sp => ('"' :: sp.1 ++ '"' :: [], sp.2))
      | 't' :: 'r' :: 'u' :: 'e' :: rest => some ("true".data, rest)
      | 'f' :: 'a' :: 'l' :: 's' :: 'e' :: rest => some ("false".data, rest)
      | 'n' :: 'u' :: 'l' :: 'l' :: rest => some ("null".data, rest)
      | '-' :: rest => (canonDigits rest).map (fun dp => ('-' :: dp.1, dp.2))
      | s2 => (canonDigits s2).map id

/-- Modelled from the spec: `json.dumps(json.loads(text), ensure_ascii=False)`
when `text` is valid JSON, `none` when `json.loads` raises. -/
def canonJson (s : Str) : Option Str :=
  match canonGo (2 * s.length + 4) 0 s with
  | some (out, rest) => if (skipWs rest).isEmpty then some out else none
  | none => none

/--
Modelled from the spec: the JSON-Completeness Oracle
(`_is_complete_json` of `sglang/srt/function_call/utils.py`, which is not
part of the shown sources).  Spec section 4.3: scan once tracking bracket
depth, string state and escape state; true iff depth returns to zero after
at least one opening bracket was seen and the scan ends outside a string.
-/
def isCompleteJsonGo : Str → Nat → Bool → Bool → Bool → Bool
  | [], depth, inStr, _, sawOpen => sawOpen && depth == 0 && !inStr
  | c :: rest, depth, inStr, esc, sawOpen =>
    if inStr then
      if esc then isCompleteJsonGo rest depth true false sawOpen
      else if c = '\\' then isCompleteJsonGo rest depth true true sawOpen
      else if c = '"' then isCompleteJsonGo rest depth false false sawOpen
      else isCompleteJsonGo rest depth true false sawOpen
    else if c = '"' then isCompleteJsonGo rest depth true false sawOpen
    else if c = '\x7b' ∨ c = '[' then isCompleteJsonGo rest (depth + 1) false false true
    else if c = '\x7d' ∨ c = ']' then isCompleteJsonGo rest (depth - 1) false false sawOpen
    else isCompleteJsonGo rest depth false false sawOpen

/-- Modelled from the spec: `_is_complete_json(text)`. -/
def is_complete_json (s : Str) : Bool := isCompleteJsonGo s 0 false false false

/-- One observed or partially observed call (`ToolCallItem` of
`core_types.py`, as used by this detector). -/
structure ToolCallItem where
  tool_index : Int
  name : Option Str
  parameters : Str
deriving DecidableEq

/-- Result of one parse operation (`StreamingParseResult`). -/
structure SPR where
  normal_text : Str
  calls : List ToolCallItem
deriving DecidableEq

/-- The stored per-call record: Python keeps `{"name": ..., "arguments": x}`
where `x` is `{}` initially, the parsed object on `json.loads` success
(kept here as its canonical serialisation), or the raw text on failure. -/
inductive ArgsVal where
  | emptyObj : ArgsVal
  | parsed : Str → ArgsVal
  | raw : Str → ArgsVal
deriving DecidableEq

/-- The streaming session state owned by one detector instance:
`_buffer`, `current_tool_id`, `current_tool_name_sent`, `_last_arguments`,
`prev_tool_call_arr` and `streamed_args_for_tool`. -/
structure DState where
  buffer : Str
  current_tool_id : Int
  current_tool_name_sent : Bool
  last_arguments : Str
  prev_tool_call_arr : List (Str × ArgsVal)
  streamed_args_for_tool : List Str
deriving DecidableEq

/-- The state after `__init__`: empty buffer, `current_tool_id = -1`,
name not sent, empty `_last_arguments` (source lines 46-58).  The initial
values of `prev_tool_call_arr` and `streamed_args_for_tool` come from the
base class (not among the shown sources) and are immaterial: the first
matched call resets both while `current_tool_id = -1` (source lines
145-149) and nothing reads them before that. -/
def initState : DState := ⟨[], -1, false, [], [], []⟩

/-- `has_tool_call` (source line 60). -/
def has_tool_call (text : Str) : Bool := containsSub bot_token text

/--
One-shot parsing `detect_and_parse` (source lines 64-99): the text before
the first sequence-begin token is stripped and returned as normal text
(or the whole text verbatim when the token is absent); the single leftmost
match of the detail regex contributes one call whose arguments are
re-serialised by the JSON primitive, and is dropped when they fail to
parse.  The method assigns no attribute of the session state.
-/
def detect_and_parse (text : Str) : SPR :=
  match findSub bot_token text with
  | none => ⟨text, []⟩
  | some idx =>
    let normalText := stripStr (text.take idx)
    match searchCall text true with
    | none => ⟨normalText, []⟩
    | some (nameRaw, argsRaw) =>
      match canonJson (stripStr argsRaw) with
      | some canon => ⟨normalText, [⟨-1, some (stripStr nameRaw), canon⟩]⟩
      | none => ⟨normalText, []⟩

/-- `detect_and_parse` as a method on the session state: the body reads
`text` only and writes no attribute, so the state passes through. -/
def detect_and_parseS (s : DState) (text : Str) : DState × SPR :=
  (s, detect_and_parse text)

/-- The defensive token filter of the streaming no-call branch (source
lines 116-119): for each token in order, if it occurs, replace every
occurrence with the empty string. -/
def filterTokens (t : Str) : Str :=
  [eot_token, fence_token, call_end_token, bot_token, call_begin_token,
    sep_token].foldl
    (fun acc tok => if containsSub tok acc then replaceAll tok [] acc else acc) t

/-- State initialisation on the first matched call (source lines 145-149). -/
def initIfNeeded (s : DState) : DState :=
  if s.current_tool_id = -1 then
    { s with current_tool_id := 0, prev_tool_call_arr := [],
             streamed_args_for_tool := [[]], current_tool_name_sent := false }
  else s

/-- Pad a list with `d` until its length is at least `n`. -/
def padTo (l : List α) (n : Nat) (d : α) : List α :=
  l ++ List.replicate (n - l.length) d

/-- The two `while` padding loops (source lines 152-155). -/
def padState (s : DState) : DState :=
  let n := s.current_tool_id.toNat + 1
  { s with
      prev_tool_call_arr := padTo s.prev_tool_call_arr n ([], ArgsVal.emptyObj),
      streamed_args_for_tool := padTo s.streamed_args_for_tool n [] }

/-- First delta of a call: emit the name with empty parameters, mark the
name sent, record the call skeleton (source lines 157-170). -/
def emitName (s : DState) (funcName : Str) : DState × SPR :=
  ({ s with current_tool_name_sent := true,
            prev_tool_call_arr :=
              s.prev_tool_call_arr.set s.current_tool_id.toNat
                (funcName, ArgsVal.emptyObj) },
   ⟨[], [⟨s.current_tool_id, some funcName, []⟩]⟩)

/-- The argument diff (source lines 172-176): the suffix beyond
`_last_arguments` when the observed text extends it, else the whole
observed text. -/
def diffOf (last funcArgsRaw : Str) : Str :=
  if last.isPrefixOf funcArgsRaw then funcArgsRaw.drop last.length
  else funcArgsRaw

/-- Argument-diff emission (source lines 172-189). -/
def emitDiff (s : DState) (funcArgsRaw : Str) : DState × List ToolCallItem :=
  let d := diffOf s.last_arguments funcArgsRaw
  if d.isEmpty then (s, [])
  else
    ({ s with
        last_arguments := s.last_arguments ++ d,
        streamed_args_for_tool :=
          s.streamed_args_for_tool.set s.current_tool_id.toNat
            ((s.streamed_args_for_tool.getD s.current_tool_id.toNat []) ++ d) },
     [⟨s.current_tool_id, none, d⟩])

/-- Finalisation of the current call (source lines 194-225): store the
parsed arguments (raw text on parse failure), trim the matched call out of
the buffer, advance the call index and reset the per-call state. -/
def finalizeCall (s : DState) (cur funcArgsRaw : Str)
    (calls : List ToolCallItem) : DState × SPR :=
  let s1 := { s with
      prev_tool_call_arr :=
        if funcArgsRaw.isEmpty then s.prev_tool_call_arr
        else
          s.prev_tool_call_arr.set s.current_tool_id.toNat
            ((s.prev_tool_call_arr.getD s.current_tool_id.toNat
                ([], ArgsVal.emptyObj)).1,
             match canonJson funcArgsRaw with
             | some c => ArgsVal.parsed c
             | none => ArgsVal.raw funcArgsRaw) }
  let buf := match trimMatchEnd cur with
    | some e => cur.drop e
    | none => []
  ({ s1 with buffer := buf, current_tool_id := s1.current_tool_id + 1,
             last_arguments := [], current_tool_name_sent := false },
   ⟨[], calls⟩)

/--
Streaming incremental parsing `parse_streaming_increment`
(source lines 101-231).  Append the fragment to the buffer; without both
sequence-begin and call-begin tokens in the buffer, emit the token-filtered
fragment (or nothing when the fragment itself holds tool tokens) and clear
the buffer; otherwise match the streaming call pattern and emit the name
delta or the arguments diff, finalising when the arguments form complete
JSON or the call-end token has arrived.  (`self._tool_indices`, assigned
once at line 129, is never read by this detector and is omitted.)
-/
def parse_streaming_increment (s0 : DState) (newText : Str) : DState × SPR :=
  let cur := s0.buffer ++ newText
  let s := { s0 with buffer := cur }
  if !(containsSub bot_token cur && containsSub call_begin_token cur) then
    let filtered := filterTokens newText
    if containsSub bot_token newText || containsSub call_begin_token newText
        || containsSub sep_token newText then
      (s, ⟨[], []⟩)
    else
      ({ s with buffer := [] }, ⟨filtered, []⟩)
  else
    match searchCall cur false with
    | none => (s, ⟨[], []⟩)
    | some (nameRaw, argsRaw) =>
      let funcName := stripStr nameRaw
      let funcArgsRaw := stripStr argsRaw
      let s1 := padState (initIfNeeded s)
      if !s1.current_tool_name_sent then emitName s1 funcName
      else
        let sd := emitDiff s1 funcArgsRaw
        if is_complete_json funcArgsRaw || containsSub call_end_token cur then
          finalizeCall sd.1 cur funcArgsRaw sd.2
        else (sd.1, ⟨[], sd.2⟩)

/-- Feed fragments one at a time through the streaming parser. -/
def runStream : DState → List Str → DState × List SPR
  | s, [] => (s, [])
  | s, f :: fs =>
    let st := parse_streaming_increment s f
    let rest := runStream st.1 fs
    (rest.1, st.2 :: rest.2)

/-- All call deltas of a run, in emission order. -/
def allCalls (rs : List SPR) : List ToolCallItem := (rs.map SPR.calls).flatten

/-- The call deltas emitted for one call index. -/
def filterK (k : Nat) (H : List ToolCallItem) : List ToolCallItem :=
  H.filter (fun it => it.tool_index == (k : Int))

/-- Concatenation, in emission order, of the parameters of the deltas that
carry no name (the argument diffs). -/
def argParams (l : List ToolCallItem) : Str :=
  (l.filterMap (fun it =>
    match it.name with
    | none => some it.parameters
    | some _ => none)).flatten

/-- The token vocabulary filtered by the streaming no-call branch, in the
order of source line 117. -/
def markerTokens : List Str :=
  [eot_token, fence_token, call_end_token, bot_token, call_begin_token,
    sep_token]

/-- One entry of the tool catalog, at the granularity the composer needs. -/
structure Tool where
  name : Str
  description : Str
  parameters_schema : Str
deriving DecidableEq

/-- Substitute the name and the arguments rule into a per-call template. -/
def substTemplate (template nm argRule : Str) : Str :=
  replaceAll "\x7bname\x7d".data nm
    (replaceAll "\x7barguments_rule\x7d".data argRule template)

/-- The `call_rule_fmt` literal passed by the detector (source line 246). -/
def call_rule_fmt : Str :=
  "\"<｜tool▁call▁begin｜>function<｜tool▁sep｜>\x7bname\x7d\\n```json\\n\" \x7barguments_rule\x7d \"\\n```<｜tool▁call▁end｜>\"".data

/--
Modelled from the spec: the grammar composer (`EBNFComposer.build_ebnf` of
`sglang/srt/function_call/ebnf_composer.py`, which is not part of the shown
sources).  Spec section 4.4: for each tool build a fragment by substituting
the tool's name and an arguments rule constrained to the tool's parameter
schema into the format's per-call template; combine the fragments as
alternatives; wrap the alternation with the sequence start/end literals and
a repetition separated by the inter-call separator.  The exact grammar text
matters to no claim below; what matters is that the composition is a pure
function of the catalog and the format rules.
-/
def ebnf_compose (seqStart seqEnd toolCallSep template : Str)
    (functionFormat : Str) (tools : List Tool) : Str :=
  let rules := tools.map (fun t =>
    substTemplate template t.name
      ("args_".data ++ t.name ++ " ".data ++ functionFormat ++ " ".data
        ++ t.parameters_schema))
  let alts := (List.intersperse " | ".data rules).flatten
  "root ::= \"".data ++ seqStart ++ "\" calls \"".data ++ seqEnd
    ++ "\"\ncalls ::= call ( \"".data ++ toolCallSep
    ++ "\" call )*\ncall ::= ".data ++ alts

/-- `build_ebnf` (source lines 240-248): delegate to the composer with the
detector's fixed token table and call template. -/
def build_ebnf (tools : List Tool) : Str :=
  ebnf_compose bot_token eot_token [] call_rule_fmt "json".data tools

/-- `build_ebnf` as a method on the session state: the body reads only its
argument and the token attributes fixed at construction (never reassigned),
so the translation takes the state as an unused, unchanged parameter. -/
def build_ebnfS (s : DState) (tools : List Tool) : DState × Str :=
  (s, build_ebnf tools)

/-- Follows the spec's words (section 4.1), as the specification side of the
one-shot contract: locate every marker-delimited call body after the first
start marker and decompose each into a name and a raw arguments substring —
each body being the region from a call-begin token to the next call-end
token, split at the separator token. -/
def specCallBodiesGo : Nat → Str → List (Str × Str)
  | 0, _ => []
  | fuel + 1, s =>
    match findSub call_begin_token s with
    | none => []
    | some i =>
      let afterCb := s.drop (i + call_begin_token.length)
      match findSub sep_token afterCb with
      | none => []
      | some j =>
        let nm := afterCb.take j
        let afterSep := afterCb.drop (j + sep_token.length)
        match findSub call_end_token afterSep with
        | none => []
        | some k =>
          (nm, afterSep.take k) ::
            specCallBodiesGo fuel (afterSep.drop (k + call_end_token.length))

/-- Follows the spec's words: the marker-delimited call bodies after the
first sequence-start marker. -/
def specCallBodies (s : Str) : List (Str × Str) :=
  match findSub bot_token s with
  | none => []
  | some i => specCallBodiesGo s.length (s.drop (i + bot_token.length))

/-- A text with two well-formed call bodies (used against claim C3). -/
def twoCallText : Str :=
  bot_token ++ call_begin_token ++ "f".data ++ sep_token ++ "\x7b\x7d".data
    ++ call_end_token ++ call_begin_token ++ "g".data ++ sep_token
    ++ "\x7b\x7d".data ++ call_end_token ++ eot_token

/-- Fragment 1 of the regression trace: sequence and call begin, name, sep. -/
def regFrag1 : Str := bot_token ++ call_begin_token ++ "f".data ++ sep_token

/-- Fragment 2 of the regression trace: an argument prefix followed by the
first half of the call-end token, split mid-token. -/
def regFrag2 : Str := "\x7b\"a\": <｜tool▁call".data

/-- Fragment 3 of the regression trace: the second half of the call-end
token. -/
def regFrag3 : Str := "▁end｜>".data

/-- A fragment whose backtick fence splits the sequence-end token; removing
the fence re-forms the token after it was checked (source lines 116-119). -/
def fenceLeakFrag : Str := "<｜tool▁calls▁e".data ++ fence_token ++ "nd｜>".data

/-- The one-fragment split of a text whose plain prefix precedes a bare
sequence-begin token (used against claim C1). -/
def c1Text : Str := "hi ".data ++ bot_token

/-! ### Lemmas about the string primitives -/

theorem isPrefixOf_eq_true {l₁ l₂ : Str} : l₁.isPrefixOf l₂ = true ↔ l₁ <+: l₂ :=
  List.isPrefixOf_iff_prefix

theorem infix_iff_drop {pat s : Str} : pat <:+: s ↔ ∃ i, pat <+: s.drop i := by
  constructor
  · rintro ⟨a, b, rfl⟩
    refine ⟨a.length, ?_⟩
    rw [List.append_assoc, List.drop_left]
    exact List.prefix_append pat b
  · rintro ⟨i, h⟩
    exact h.isInfix.trans (List.drop_suffix i s).isInfix

theorem findSubAux_none {pat : Str} :
    ∀ s : Str, findSubAux pat s = none → ∀ i, ¬ pat <+: s.drop i := by
  intro s
  induction s with
  | nil =>
    intro h i hp
    simp only [findSubAux, List.isEmpty_iff] at h
    rw [List.drop_nil] at hp
    have : pat = [] := List.prefix_nil.mp hp
    simp [this] at h
  | cons c rest ih =>
    intro h i hp
    by_cases hpre : pat.isPrefixOf (c :: rest)
    · simp [findSubAux, hpre] at h
    · cases i with
      | zero =>
        rw [List.drop_zero] at hp
        exact hpre (isPrefixOf_eq_true.mpr hp)
      | succ j =>
        refine ih ?_ j (by simpa using hp)
        cases hfr : findSubAux pat rest with
        | none => rfl
        | some k => simp [findSubAux, hpre, hfr] at h

theorem findSubAux_some {pat : Str} :
    ∀ (s : Str) (i : Nat), findSubAux pat s = some i →
      pat <+: s.drop i ∧ ∀ j < i, ¬ pat <+: s.drop j := by
  intro s
  induction s with
  | nil =>
    intro i h
    simp only [findSubAux] at h
    by_cases hp : pat.isEmpty
    · simp only [hp, if_pos, Option.some.injEq] at h
      subst h
      refine ⟨by simp [List.isEmpty_iff.mp hp], by omega⟩
    · simp [hp] at h
  | cons c rest ih =>
    intro i h
    by_cases hpre : pat.isPrefixOf (c :: rest)
    · have hi : i = 0 := by simp [findSubAux, hpre] at h; omega
      subst hi
      exact ⟨by simpa using isPrefixOf_eq_true.mp hpre, by omega⟩
    · cases hfr : findSubAux pat rest with
      | none => simp [findSubAux, hpre, hfr] at h
      | some i0 =>
        have hi : i = i0 + 1 := by simp [findSubAux, hpre, hfr] at h; omega
        subst hi
        obtain ⟨h1, h2⟩ := ih i0 hfr
        refine ⟨by simpa using h1, ?_⟩
        intro j hj hpj
        cases j with
        | zero =>
          rw [List.drop_zero] at hpj
          exact hpre (isPrefixOf_eq_true.mpr hpj)
        | succ j0 =>
          exact h2 j0 (by omega) (by simpa using hpj)

theorem containsSub_iff {pat s : Str} : containsSub pat s = true ↔ pat <:+: s := by
  unfold containsSub findSub
  constructor
  · intro h
    cases hf : findSubAux pat s with
    | none => simp [hf] at h
    | some i =>
      exact infix_iff_drop.mpr ⟨i, (findSubAux_some s i hf).1⟩
  · intro h
    cases hf : findSubAux pat s with
    | none =>
      obtain ⟨i, hi⟩ := infix_iff_drop.mp h
      exact absurd hi (findSubAux_none s hf i)
    | some i => simp

theorem containsSub_false_iff {pat s : Str} :
    containsSub pat s = false ↔ ¬ pat <:+: s := by
  rw [← containsSub_iff]
  cases containsSub pat s <;> simp

theorem findSub_some_prefix {pat s : Str} {i : Nat} (h : findSub pat s = some i) :
    pat <+: s.drop i := (findSubAux_some s i h).1

theorem findSub_some_min {pat s : Str} {i : Nat} (h : findSub pat s = some i) :
    ∀ j < i, ¬ pat <+: s.drop j := (findSubAux_some s i h).2

theorem not_infix_take_of_findSub {pat s : Str} {i : Nat}
    (h : findSub pat s = some i) (hne : pat ≠ []) : ¬ pat <:+: s.take i := by
  intro hinf
  obtain ⟨j, hj⟩ := infix_iff_drop.mp hinf
  rw [List.drop_take] at hj
  have hj2 : pat <+: s.drop j := hj.trans (List.take_prefix _ _)
  by_cases hlt : j < i
  · exact findSub_some_min h j hlt hj2
  · have : i - j = 0 := by omega
    rw [this, List.take_zero] at hj
    exact hne (List.prefix_nil.mp hj)

theorem stripStr_infix_self (s : Str) : stripStr s <:+: s := by
  unfold stripStr
  exact (List.rdropWhile_prefix _ _).isInfix.trans
    (List.dropWhile_suffix _).isInfix

theorem infix_flatten_of_mem {f : Str} {fs : List Str} (h : f ∈ fs) :
    f <:+: fs.flatten := by
  induction fs with
  | nil => simp at h
  | cons g gs ih =>
    rcases List.mem_cons.mp h with rfl | h2
    · exact (List.prefix_append f gs.flatten).isInfix
    · exact (ih h2).trans (List.suffix_append g gs.flatten).isInfix

/-! ### Characterisation of the one-shot parser -/

theorem detect_normal_none {text : Str} (hf : findSub bot_token text = none) :
    (detect_and_parse text).normal_text = text := by
  simp only [detect_and_parse, hf]

theorem detect_normal_some {text : Str} {i : Nat}
    (hf : findSub bot_token text = some i) :
    (detect_and_parse text).normal_text = stripStr (text.take i) := by
  cases hs : searchCall text true with
  | none => simp only [detect_and_parse, hf, hs]
  | some pr =>
    cases pr with
    | mk nameRaw argsRaw =>
      cases hj : canonJson (stripStr argsRaw) with
      | none => simp only [detect_and_parse, hf, hs, hj]
      | some c => simp only [detect_and_parse, hf, hs, hj]

theorem detect_calls_le_one (text : Str) :
    (detect_and_parse text).calls.length ≤ 1 := by
  cases hf : findSub bot_token text with
  | none => simp [detect_and_parse, hf]
  | some i =>
    cases hs : searchCall text true with
    | none => simp [detect_and_parse, hf, hs]
    | some pr =>
      cases pr with
      | mk nameRaw argsRaw =>
        cases hj : canonJson (stripStr argsRaw) with
        | none => simp [detect_and_parse, hf, hs, hj]
        | some c => simp [detect_and_parse, hf, hs, hj]

theorem matchAt_some_imp {s : Str} {i : Nat} {b : Bool} {r : Str × Str}
    (h : matchAt s i b = some r) :
    (bot_token ++ call_begin_token) <+: s.drop i := by
  unfold matchAt at h
  by_cases hp : (bot_token ++ call_begin_token).isPrefixOf (s.drop i)
  · exact isPrefixOf_eq_true.mp hp
  · simp [hp] at h

theorem searchFrom_some_imp {s : Str} {b : Bool} :
    ∀ (fuel i : Nat) {r : Str × Str}, searchFrom s b fuel i = some r →
      ∃ j, matchAt s j b = some r := by
  intro fuel
  induction fuel with
  | zero => intro i r h; simp [searchFrom] at h
  | succ f ih =>
    intro i r h
    cases hm : matchAt s i b with
    | some r2 =>
      refine ⟨i, ?_⟩
      rw [hm]
      simpa only [searchFrom, hm] using h
    | none =>
      simp only [searchFrom, hm] at h
      by_cases hi : i < s.length
      · rw [if_pos hi] at h
        exact ih _ h
      · rw [if_neg hi] at h
        exact absurd h (by simp)

theorem searchCall_some_contains {s : Str} {b : Bool} {r : Str × Str}
    (h : searchCall s b = some r) : containsSub bot_token s = true := by
  obtain ⟨j, hj⟩ := searchFrom_some_imp _ _ h
  have h2 := matchAt_some_imp hj
  rw [containsSub_iff]
  exact infix_iff_drop.mpr
    ⟨j, (List.prefix_append bot_token call_begin_token).trans h2⟩

/-! ### Claim theorems: the one-shot parser -/

/--
C9: `detect_and_parse` leaves the streaming session state unchanged — the
pending buffer, `current_tool_id`, `current_tool_name_sent` and
`_last_arguments` have the same values after the call as before it (the
method body of source lines 64-99 assigns no attribute).
-/
theorem c9_detect_frame (s : DState) (text : Str) :
    (detect_and_parseS s text).1.buffer = s.buffer ∧
    (detect_and_parseS s text).1.current_tool_id = s.current_tool_id ∧
    (detect_and_parseS s text).1.current_tool_name_sent
      = s.current_tool_name_sent ∧
    (detect_and_parseS s text).1.last_arguments = s.last_arguments :=
  ⟨rfl, rfl, rfl, rfl⟩

/--
C8: the grammar composition reads no mutable state — for any two session
states and equal tool catalogs, `build_ebnf` returns byte-identical
grammar text; its output is a function of its inputs only.
-/
theorem c8_ebnf_deterministic (s1 s2 : DState) (t1 t2 : List Tool)
    (h : t1 = t2) : (build_ebnfS s1 t1).2 = (build_ebnfS s2 t2).2 := by
  subst h; rfl

/-- Witness for C8 at a concrete catalog and two distinct states. -/
theorem c8_ebnf_deterministic_witness :
    (build_ebnfS initState [⟨"f".data, [], "obj".data⟩]).2 =
      (build_ebnfS ⟨"x".data, 3, true, "y".data, [], []⟩
        [⟨"f".data, [], "obj".data⟩]).2 :=
  c8_ebnf_deterministic initState ⟨"x".data, 3, true, "y".data, [], []⟩ _ _ rfl

/--
C2 counterexample: plain-text outputs can contain marker substrings.
One-shot: on input consisting of the sequence-end token alone, the whole
text, the token included, is returned as `normal_text`.  Streaming: a
fragment in which a backtick fence splits the sequence-end token leaks the
re-formed token, because the fence is removed after the sequence-end check
already ran.
-/
theorem c2_counterexample :
    containsSub eot_token (detect_and_parse eot_token).normal_text = true ∧
    containsSub eot_token
      (parse_streaming_increment initState fenceLeakFrag).2.normal_text
      = true := by decide

/--
C2 amended: the one-shot parser's `plain_text` never contains the
sequence-begin marker (everything from its first occurrence onward is cut
off); the corresponding guarantee for the other marker tokens, and for the
streaming mode, does not hold.
-/
theorem c2_amended_no_bot_leak (text : Str) :
    containsSub bot_token (detect_and_parse text).normal_text = false := by
  rw [containsSub_false_iff]
  cases hf : findSub bot_token text with
  | none =>
    rw [detect_normal_none hf]
    intro hinf
    obtain ⟨i, hi⟩ := infix_iff_drop.mp hinf
    exact findSubAux_none text hf i hi
  | some i =>
    rw [detect_normal_some hf]
    intro hinf
    exact not_infix_take_of_findSub hf (by decide)
      (hinf.trans (stripStr_infix_self _))

/--
C7: when the matched call's raw arguments substring is not valid JSON, the
one-shot parser drops that one call — it returns the stripped text before
the first start marker as `plain_text` and an empty call list, and raises
nothing (the translation is total).
-/
theorem c7_bad_json_dropped (text nameRaw argsRaw : Str)
    (hs : searchCall text true = some (nameRaw, argsRaw))
    (hj : canonJson (stripStr argsRaw) = none) :
    ∃ i, findSub bot_token text = some i ∧
      detect_and_parse text = ⟨stripStr (text.take i), []⟩ := by
  have hc := searchCall_some_contains hs
  unfold containsSub at hc
  cases hf : findSub bot_token text with
  | none => rw [hf] at hc; simp at hc
  | some i =>
    refine ⟨i, rfl, ?_⟩
    simp only [detect_and_parse, hf, hs, hj]

/-- Witness for C7: a concrete text whose arguments are not JSON. -/
theorem c7_bad_json_dropped_witness :
    ∃ i, findSub bot_token (bot_token ++ call_begin_token ++ "f".data
        ++ sep_token ++ "oops".data ++ call_end_token ++ eot_token)
        = some i ∧
      detect_and_parse (bot_token ++ call_begin_token ++ "f".data
        ++ sep_token ++ "oops".data ++ call_end_token ++ eot_token)
        = ⟨stripStr ((bot_token ++ call_begin_token ++ "f".data ++ sep_token
            ++ "oops".data ++ call_end_token ++ eot_token).take i), []⟩ :=
  c7_bad_json_dropped _ "f".data "oops".data (by decide) (by decide)

/--
C3 counterexample: a text with two well-formed marker-delimited call bodies
(per the spec's own decomposition, both with JSON-parsable arguments) for
which `detect_and_parse` returns a single ToolCallItem, not two — the
one-shot parser matches the detail pattern once and never iterates.
-/
theorem c3_counterexample :
    specCallBodies twoCallText =
      [("f".data, "\x7b\x7d".data), ("g".data, "\x7b\x7d".data)] ∧
    (∀ b ∈ specCallBodies twoCallText, (canonJson b.2).isSome = true) ∧
    (detect_and_parse twoCallText).calls.length = 1 := by decide

/--
C3 amended: `detect_and_parse` returns the stripped text before the first
start marker as `plain_text` together with at most one ToolCallItem — the
leftmost matched call body, carrying its name and re-serialised arguments,
provided those arguments parse; call bodies after the first are ignored.
-/
theorem c3_amended_first_call_only (text nameRaw argsRaw canon : Str)
    (i : Nat) (hs : searchCall text true = some (nameRaw, argsRaw))
    (hj : canonJson (stripStr argsRaw) = some canon)
    (hf : findSub bot_token text = some i) :
    detect_and_parse text =
      ⟨stripStr (text.take i), [⟨-1, some (stripStr nameRaw), canon⟩]⟩ ∧
    (detect_and_parse text).calls.length ≤ 1 := by
  refine ⟨?_, detect_calls_le_one text⟩
  simp only [detect_and_parse, hf, hs, hj]

/-- Witness for C3 (amended) at the two-call text: only the first call is
returned. -/
theorem c3_amended_first_call_only_witness :
    detect_and_parse twoCallText =
      ⟨stripStr (twoCallText.take 0),
        [⟨-1, some (stripStr "f".data), "\x7b\x7d".data⟩]⟩ ∧
    (detect_and_parse twoCallText).calls.length ≤ 1 :=
  c3_amended_first_call_only twoCallText "f".data "\x7b\x7d".data
    "\x7b\x7d".data 0 (by decide) (by decide) (by decide)

/-! ### Claim theorems: streaming, direct branches -/

/--
C10: when the pending buffer does not contain both the sequence-begin and
the call-begin marker and the new fragment contains no tool tokens, the
streaming parser returns only the filtered new fragment as normal text and
resets the buffer to empty — the previously withheld buffered text is
discarded, and since the successor state no longer mentions it, it is never
emitted in any later result.
-/
theorem c10_buffer_discarded (s : DState) (newText : Str)
    (hnc : (containsSub bot_token (s.buffer ++ newText)
        && containsSub call_begin_token (s.buffer ++ newText)) = false)
    (h2 : containsSub bot_token newText = false)
    (h3 : containsSub call_begin_token newText = false)
    (h4 : containsSub sep_token newText = false) :
    parse_streaming_increment s newText
      = ({ s with buffer := [] }, ⟨filterTokens newText, []⟩) := by
  simp only [parse_streaming_increment, hnc, h2, h3, h4, Bool.not_false,
    if_true, Bool.or_self, Bool.or_false, Bool.false_or, ite_true,
    Bool.false_eq_true, ite_false]

/-- Witness for C10: a session whose buffer withholds a half-token is fed a
plain fragment; the withheld text is dropped. -/
theorem c10_buffer_discarded_witness :
    parse_streaming_increment ⟨"<｜tool".data, -1, false, [], [], []⟩ "x".data
      = ({ (⟨"<｜tool".data, -1, false, [], [], []⟩ : DState) with
            buffer := [] },
         ⟨filterTokens "x".data, []⟩) :=
  c10_buffer_discarded ⟨"<｜tool".data, -1, false, [], [], []⟩ "x".data
    (by decide) (by decide) (by decide) (by decide)

theorem filterTokens_id {t : Str}
    (h : ∀ tok ∈ markerTokens, containsSub tok t = false) :
    filterTokens t = t := by
  have h1 := h eot_token (by simp [markerTokens])
  have h2 := h fence_token (by simp [markerTokens])
  have h3 := h call_end_token (by simp [markerTokens])
  have h4 := h bot_token (by simp [markerTokens])
  have h5 := h call_begin_token (by simp [markerTokens])
  have h6 := h sep_token (by simp [markerTokens])
  simp [filterTokens, h1, h2, h3, h4, h5, h6]

theorem step_tokenFree (s : DState) (f : Str) (hbuf : s.buffer = [])
    (h : ∀ tok ∈ markerTokens, containsSub tok f = false) :
    parse_streaming_increment s f = (s, ⟨f, []⟩) := by
  have h4 := h bot_token (by simp [markerTokens])
  have h5 := h call_begin_token (by simp [markerTokens])
  have h6 := h sep_token (by simp [markerTokens])
  have hcur : s.buffer ++ f = f := by rw [hbuf]; rfl
  have hfi := filterTokens_id h
  cases s with
  | mk b tid ns la pa sa =>
    simp only [DState.buffer] at hbuf hcur
    subst hbuf
    simp only [parse_streaming_increment, List.nil_append, h4, h5, h6,
      Bool.false_and, Bool.not_false, if_true, Bool.or_self, Bool.or_false,
      Bool.false_or, Bool.false_eq_true, ite_false, ite_true, hfi]

theorem runStream_tokenFree :
    ∀ (fs : List Str) (s : DState), s.buffer = [] →
      (∀ f ∈ fs, ∀ tok ∈ markerTokens, containsSub tok f = false) →
      runStream s fs = (s, fs.map (fun f => ⟨f, []⟩)) := by
  intro fs
  induction fs with
  | nil => intro s _ _; rfl
  | cons f fs ih =>
    intro s hbuf h
    have hstep := step_tokenFree s f hbuf (h f (by simp))
    simp only [runStream, hstep]
    rw [ih s hbuf (fun g hg => h g (by simp [hg]))]
    simp

/--
C1 amended: the one-shot / streaming equivalence holds on the marker-free
fragment of the language — when the full text contains none of the format's
marker tokens and no backtick fence, every split into consecutive fragments
makes the incremental parser emit exactly the fragments as plain text and
no calls, agreeing with the one-shot parse of the full text.  On texts
containing markers the equivalence fails (see the counterexample): the
streaming side withholds or rewrites text that the one-shot side returns.
-/
theorem c1_amended_equiv_marker_free (fs : List Str)
    (h : ∀ tok ∈ markerTokens, containsSub tok fs.flatten = false) :
    ((runStream initState fs).2.map SPR.normal_text).flatten
        = (detect_and_parse fs.flatten).normal_text ∧
    allCalls (runStream initState fs).2 = (detect_and_parse fs.flatten).calls := by
  have hf : ∀ f ∈ fs, ∀ tok ∈ markerTokens, containsSub tok f = false := by
    intro f hfm tok htm
    rw [containsSub_false_iff]
    intro hinf
    exact (containsSub_false_iff.mp (h tok htm))
      (hinf.trans (infix_flatten_of_mem hfm))
  rw [runStream_tokenFree fs initState rfl hf]
  have hbot := containsSub_false_iff.mp (h bot_token (by simp [markerTokens]))
  have hfs : findSub bot_token fs.flatten = none := by
    cases hfind : findSub bot_token fs.flatten with
    | none => rfl
    | some i =>
      exact absurd (infix_iff_drop.mpr ⟨i, findSub_some_prefix hfind⟩) hbot
  constructor
  · rw [detect_normal_none hfs]
    simp [List.map_map, Function.comp_def]
  · simp only [detect_and_parse, hfs]
    simp [allCalls, List.map_map, Function.comp_def]

/-- Witness for C1 (amended) at a concrete marker-free split. -/
theorem c1_amended_equiv_marker_free_witness :
    ((runStream initState ["ab".data, "cd".data]).2.map SPR.normal_text).flatten
        = (detect_and_parse (["ab".data, "cd".data].flatten)).normal_text ∧
    allCalls (runStream initState ["ab".data, "cd".data]).2
        = (detect_and_parse (["ab".data, "cd".data].flatten)).calls :=
  c1_amended_equiv_marker_free ["ab".data, "cd".data] (by decide)

/--
C1 counterexample: for the text `"hi <seq-begin>"` under the one-fragment
split, the one-shot parser returns plain text `"hi"` while the streaming
parser returns nothing at all (the fragment holds a tool token, so it is
withheld), so the concatenated streaming plain text differs from the
one-shot plain text.
-/
theorem c1_counterexample :
    (detect_and_parse c1Text).normal_text = "hi".data ∧
    (detect_and_parse c1Text).calls = [] ∧
    ((runStream initState [c1Text]).2.map SPR.normal_text).flatten = [] ∧
    allCalls (runStream initState [c1Text]).2 = [] ∧
    "hi".data ≠ ([] : Str) := by decide

/--
C4 counterexample: on the three-fragment session
`[<begin tokens>f<sep>, "\x7b\"a\": <｜tool▁call", "▁end｜>"]` the second
invocation returns the argument diff `"\x7b\"a\": <｜tool▁call"` and the
third invocation returns `"\x7b\"a\":"` — a nonempty prefix of the earlier
diff, so every character of the third delta was already returned by the
second one (the regression fallback of source line 175 re-emits it).
-/
theorem c4_counterexample :
    (runStream initState [regFrag1, regFrag2, regFrag3]).2.map SPR.calls =
      [[⟨0, some "f".data, []⟩],
       [⟨0, none, "\x7b\"a\": <｜tool▁call".data⟩],
       [⟨0, none, "\x7b\"a\":".data⟩]] ∧
    "\x7b\"a\":".data ≠ ([] : Str) ∧
    "\x7b\"a\":".data.isPrefixOf "\x7b\"a\": <｜tool▁call".data = true := by
  decide

/-! ### The matched branch of the streaming parser -/

theorem step_match_eq (s : DState) (newText nameRaw argsRaw : Str)
    (hbot : containsSub bot_token (s.buffer ++ newText) = true)
    (hcb : containsSub call_begin_token (s.buffer ++ newText) = true)
    (hmatch : searchCall (s.buffer ++ newText) false = some (nameRaw, argsRaw)) :
    parse_streaming_increment s newText =
      (let s1 := padState (initIfNeeded { s with buffer := s.buffer ++ newText })
       if !s1.current_tool_name_sent then emitName s1 (stripStr nameRaw)
       else
         let sd := emitDiff s1 (stripStr argsRaw)
         if is_complete_json (stripStr argsRaw)
             || containsSub call_end_token (s.buffer ++ newText) then
           finalizeCall sd.1 (s.buffer ++ newText) (stripStr argsRaw) sd.2
         else (sd.1, ⟨[], sd.2⟩)) := by
  simp only [parse_streaming_increment, hbot, hcb, Bool.and_self,
    Bool.not_true, Bool.false_eq_true, ite_false, hmatch]

/--
C4 amended: the streaming parser never re-emits, provided the observed
(stripped) arguments text at each step extends the already-streamed prefix:
in that case every call delta of the invocation carries no name and its
parameters are exactly the not-yet-emitted suffix beyond `_last_arguments`.
When the observation does not extend the prefix (a regression, e.g. a
partial end-marker first included in, then excluded from, the arguments),
the source instead re-emits the entire observed text as the diff — the
counterexample exhibits such a duplicated emission.
-/
theorem c4_amended_no_reemit_on_extension (s : DState)
    (newText nameRaw argsRaw : Str)
    (hbot : containsSub bot_token (s.buffer ++ newText) = true)
    (hcb : containsSub call_begin_token (s.buffer ++ newText) = true)
    (hmatch : searchCall (s.buffer ++ newText) false = some (nameRaw, argsRaw))
    (hid : s.current_tool_id ≠ -1)
    (hsent : s.current_tool_name_sent = true)
    (hext : s.last_arguments.isPrefixOf (stripStr argsRaw) = true) :
    ∀ it ∈ (parse_streaming_increment s newText).2.calls,
      it.name = none ∧
      it.parameters = (stripStr argsRaw).drop s.last_arguments.length := by
  intro it hit
  rw [step_match_eq s newText nameRaw argsRaw hbot hcb hmatch] at hit
  have hs1sent :
      (padState (initIfNeeded { s with buffer := s.buffer ++ newText
        })).current_tool_name_sent = true := by
    simp [padState, initIfNeeded, hid, hsent]
  have hs1la :
      (padState (initIfNeeded { s with buffer := s.buffer ++ newText
        })).last_arguments = s.last_arguments := by
    simp [padState, initIfNeeded, hid]
  simp only [hs1sent, Bool.not_true, Bool.false_eq_true, ite_false] at hit
  have hmem : it ∈ (emitDiff
      (padState (initIfNeeded { s with buffer := s.buffer ++ newText }))
      (stripStr argsRaw)).2 := by
    rcases hC : (is_complete_json (stripStr argsRaw)
        || containsSub call_end_token (s.buffer ++ newText)) with _ | _
    · rw [hC] at hit
      simpa using hit
    · rw [hC] at hit
      simpa [finalizeCall] using hit
  clear hit
  have hdval : diffOf
      (padState (initIfNeeded { s with buffer := s.buffer ++ newText
        })).last_arguments (stripStr argsRaw)
      = (stripStr argsRaw).drop s.last_arguments.length := by
    unfold diffOf
    rw [hs1la, hext]
    simp
  simp only [emitDiff, hdval] at hmem
  by_cases hde : ((stripStr argsRaw).drop s.last_arguments.length).isEmpty
  · simp [hde] at hmem
  · simp [hde] at hmem
    subst hmem
    exact ⟨rfl, rfl⟩

/-- Witness for C4 (amended): a mid-call session state (name already sent,
no arguments streamed yet) receiving an argument fragment emits exactly the
fresh suffix. -/
theorem c4_amended_no_reemit_on_extension_witness :
    (parse_streaming_increment
        ⟨regFrag1, 0, true, [], [("f".data, ArgsVal.emptyObj)], [[]]⟩
        "\x7b\"a\"".data).2.calls
      = [⟨0, none, "\x7b\"a\"".data⟩] ∧
    ((⟨0, none, "\x7b\"a\"".data⟩ : ToolCallItem).name = none ∧
      (⟨0, none, "\x7b\"a\"".data⟩ : ToolCallItem).parameters
        = (stripStr "\x7b\"a\"".data).drop ([] : Str).length) :=
  ⟨by decide,
   c4_amended_no_reemit_on_extension
     ⟨regFrag1, 0, true, [], [("f".data, ArgsVal.emptyObj)], [[]]⟩
     "\x7b\"a\"".data "f".data "\x7b\"a\"".data
     (by decide) (by decide) (by decide) (by decide) (by decide) (by decide)
     ⟨0, none, "\x7b\"a\"".data⟩ (by decide)⟩

/-! ### List bookkeeping lemmas -/

theorem getD_set_eq {α : Type} (d : α) :
    ∀ (l : List α) (k : Nat) (v : α), k < l.length → (l.set k v).getD k d = v := by
  intro l
  induction l with
  | nil => intro k v h; simp at h
  | cons a l ih =>
    intro k v h
    cases k with
    | zero => rfl
    | succ k => simpa using ih k v (by simpa using h)

theorem getD_set_ne {α : Type} (d : α) :
    ∀ (l : List α) (k j : Nat) (v : α), j ≠ k →
      (l.set k v).getD j d = l.getD j d := by
  intro l
  induction l with
  | nil => intro k j v _; rfl
  | cons a l ih =>
    intro k j v hne
    cases k with
    | zero =>
      cases j with
      | zero => exact absurd rfl hne
      | succ j => rfl
    | succ k =>
      cases j with
      | zero => rfl
      | succ j => simpa using ih k j v (by omega)

theorem getD_padTo {α : Type} (d : α) (l : List α) (n : Nat) (k : Nat) :
    (padTo l n d).getD k d = l.getD k d := by
  unfold padTo
  rcases lt_or_le k l.length with h | h
  · rw [List.getD_append _ _ _ _ h]
  · rw [List.getD_eq_default l d h]
    rcases lt_or_le k (l.length + (n - l.length)) with h2 | h2
    · rw [List.getD_eq_getElem _ _ (by simpa using h2)]
      rw [List.getElem_append_right (by simpa using h)]
      exact List.getElem_replicate ..
    · exact List.getD_eq_default _ _ (by simpa using h2)

theorem length_padTo {α : Type} (d : α) (l : List α) (n : Nat) :
    (padTo l n d).length = l.length + (n - l.length) := by
  simp [padTo]

theorem filterK_append (k : Nat) (a b : List ToolCallItem) :
    filterK k (a ++ b) = filterK k a ++ filterK k b := by
  simp [filterK, List.filter_append]

theorem filterK_nil (k : Nat) : filterK k [] = [] := rfl

theorem filterK_single_eq (k : Nat) (n : Option Str) (p : Str) :
    filterK k [⟨(k : Int), n, p⟩] = [⟨(k : Int), n, p⟩] := by
  simp [filterK]

theorem filterK_single_ne (k : Nat) (t : Int) (n : Option Str) (p : Str)
    (h : t ≠ (k : Int)) : filterK k [⟨t, n, p⟩] = [] := by
  simp [filterK, h]

theorem argParams_append (a b : List ToolCallItem) :
    argParams (a ++ b) = argParams a ++ argParams b := by
  simp [argParams, List.filterMap_append]

theorem argParams_name_single (t : Int) (nm p : Str) :
    argParams [⟨t, some nm, p⟩] = [] := by
  simp [argParams]

theorem argParams_none_single (t : Int) (p : Str) :
    argParams [⟨t, none, p⟩] = p := by
  simp [argParams]

theorem argParams_filterK_name (k : Nat) (t : Int) (nm p : Str) :
    argParams (filterK k [⟨t, some nm, p⟩]) = [] := by
  by_cases h : t = (k : Int)
  · subst h; rw [filterK_single_eq]; exact argParams_name_single ..
  · rw [filterK_single_ne k t _ _ h]; rfl

theorem allCalls_cons (r : SPR) (rs : List SPR) :
    allCalls (r :: rs) = r.calls ++ allCalls rs := by
  simp [allCalls]

theorem filterK_eq_nil_of_bound {k : Nat} {H : List ToolCallItem} {m : Int}
    (hb : ∀ it ∈ H, it.tool_index ≤ m) (hm : m < (k : Int)) :
    filterK k H = [] := by
  rw [filterK, List.filter_eq_nil_iff]
  intro it hit
  have := hb it hit
  simp only [beq_iff_eq]
  omega

/-! ### The streaming invariant -/

/--
Reachability invariant of the streaming session: relates the state to the
history `H` of every call delta emitted so far.  `current_tool_id` bounds
the indices in `H`; for each finished index the deltas are a name delta
followed by name-less argument diffs; for the active index the argument
diffs concatenate to `_last_arguments`; for every index the argument diffs
concatenate to the `streamed_args_for_tool` record.
-/
structure SessionInv (s : DState) (H : List ToolCallItem) : Prop where
  hid : -1 ≤ s.current_tool_id
  hneg : s.current_tool_id = -1 →
    H = [] ∧ s.current_tool_name_sent = false ∧ s.streamed_args_for_tool = []
  hlast0 : s.current_tool_name_sent = false → s.last_arguments = []
  hidx : ∀ it ∈ H, 0 ≤ it.tool_index ∧ it.tool_index ≤ s.current_tool_id
  hcur0 : ∀ k : Nat, (k : Int) = s.current_tool_id →
    s.current_tool_name_sent = false → filterK k H = []
  hcur1 : ∀ k : Nat, (k : Int) = s.current_tool_id →
    s.current_tool_name_sent = true →
    ∃ nm rest, filterK k H = ⟨(k : Int), some nm, []⟩ :: rest ∧
      (∀ it ∈ rest, it.name = none) ∧ argParams rest = s.last_arguments
  hpast : ∀ k : Nat, (k : Int) < s.current_tool_id →
    ∃ nm rest, filterK k H = ⟨(k : Int), some nm, []⟩ :: rest ∧
      ∀ it ∈ rest, it.name = none
  hstream : ∀ k : Nat,
    argParams (filterK k H) = s.streamed_args_for_tool.getD k []
  hlen : s.streamed_args_for_tool.length ≤ (s.current_tool_id + 1).toNat

theorem inv_init : SessionInv initState [] := by
  constructor
  · exact le_refl _
  · intro _; exact ⟨rfl, rfl, rfl⟩
  · intro _; rfl
  · intro it hit; exact absurd hit (List.not_mem_nil it)
  · intro k _ _; rfl
  · intro k _ hs; exact absurd hs (by decide)
  · intro k hk; simp only [initState] at hk; exfalso; omega
  · intro k; cases k <;> rfl
  · decide

theorem inv_set_buffer {s : DState} {H : List ToolCallItem} {b : Str}
    (h : SessionInv s H) : SessionInv { s with buffer := b } H :=
  ⟨h.hid, h.hneg, h.hlast0, h.hidx, h.hcur0, h.hcur1, h.hpast, h.hstream,
    h.hlen⟩

theorem initIfNeeded_id_nonneg {s : DState} (h : -1 ≤ s.current_tool_id) :
    0 ≤ (initIfNeeded s).current_tool_id := by
  by_cases hc : s.current_tool_id = -1
  · simp [initIfNeeded, hc]
  · simp only [initIfNeeded, hc, ite_false]
    omega

theorem inv_initIfNeeded {s : DState} {H : List ToolCallItem}
    (h : SessionInv s H) : SessionInv (initIfNeeded s) H := by
  unfold initIfNeeded
  by_cases hc : s.current_tool_id = -1
  · rw [if_pos hc]
    obtain ⟨hH, hns, _⟩ := h.hneg hc
    subst hH
    refine ⟨?_, ?_, ?_, ?_, ?_, ?_, ?_, ?_, ?_⟩
    · show (-1 : Int) ≤ 0
      decide
    · intro h0
      have h0' : (0 : Int) = -1 := h0
      exact absurd h0' (by decide)
    · intro _; exact h.hlast0 hns
    · intro it hit; exact absurd hit (List.not_mem_nil it)
    · intro k _ _; rfl
    · intro k _ hs
      have hs' : false = true := hs
      exact absurd hs' (by decide)
    · intro k hk
      exfalso
      have hk' : (k : Int) < 0 := hk
      omega
    · intro k; cases k <;> rfl
    · show ([[]] : List Str).length ≤ ((0 : Int) + 1).toNat
      decide
  · rw [if_neg hc]; exact h

theorem padState_lt (x : DState) :
    x.current_tool_id.toNat < (padState x).streamed_args_for_tool.length := by
  show _ < (padTo x.streamed_args_for_tool (x.current_tool_id.toNat + 1) []).length
  rw [length_padTo]
  omega

theorem inv_padState {s : DState} {H : List ToolCallItem}
    (h : SessionInv s H) (h0 : 0 ≤ s.current_tool_id) :
    SessionInv (padState s) H := by
  refine ⟨h.hid, ?_, h.hlast0, h.hidx, h.hcur0, h.hcur1, h.hpast, ?_, ?_⟩
  · intro hc
    have hc' : s.current_tool_id = -1 := hc
    exfalso; omega
  · intro k
    show argParams (filterK k H)
      = (padTo s.streamed_args_for_tool (s.current_tool_id.toNat + 1) []).getD k []
    rw [getD_padTo]
    exact h.hstream k
  · show (padTo s.streamed_args_for_tool (s.current_tool_id.toNat + 1) []).length
      ≤ (s.current_tool_id + 1).toNat
    rw [length_padTo]
    have := h.hlen
    omega

theorem inv_emitName {s : DState} {H : List ToolCallItem} (nm : Str)
    (h : SessionInv s H) (h0 : 0 ≤ s.current_tool_id)
    (hns : s.current_tool_name_sent = false) :
    SessionInv (emitName s nm).1 (H ++ (emitName s nm).2.calls) := by
  refine ⟨h.hid, ?_, ?_, ?_, ?_, ?_, ?_, ?_, h.hlen⟩
  · intro hc
    have hc' : s.current_tool_id = -1 := hc
    exfalso; omega
  · intro hf
    have hf' : true = false := hf
    exact absurd hf' (by decide)
  · intro it hit
    rcases List.mem_append.mp hit with h1 | h2
    · exact h.hidx it h1
    · have heq : it = ⟨s.current_tool_id, some nm, []⟩ := by
        simpa [emitName] using h2
      subst heq
      exact ⟨h0, le_refl _⟩
  · intro k _ hs
    have hs' : true = false := hs
    exact absurd hs' (by decide)
  · intro k hk _
    have hk' : (k : Int) = s.current_tool_id := hk
    have hK : filterK k H = [] := h.hcur0 k hk' hns
    refine ⟨nm, [], ?_, ?_, ?_⟩
    · show filterK k (H ++ [⟨s.current_tool_id, some nm, []⟩]) = _
      rw [filterK_append, hK, List.nil_append, ← hk', filterK_single_eq]
    · intro it hit; exact absurd hit (List.not_mem_nil it)
    · exact (h.hlast0 hns).symm
  · intro k hk
    have hk' : (k : Int) < s.current_tool_id := hk
    obtain ⟨nm', rest, heq, hall⟩ := h.hpast k hk'
    refine ⟨nm', rest, ?_, hall⟩
    show filterK k (H ++ [⟨s.current_tool_id, some nm, []⟩]) = _
    rw [filterK_append, heq, filterK_single_ne k _ _ _ (by omega),
      List.append_nil]
  · intro k
    show argParams (filterK k (H ++ [⟨s.current_tool_id, some nm, []⟩])) = _
    rw [filterK_append, argParams_append, argParams_filterK_name,
      List.append_nil]
    exact h.hstream k

theorem emitDiff_fst_id (s : DState) (fargs : Str) :
    (emitDiff s fargs).1.current_tool_id = s.current_tool_id := by
  simp only [emitDiff]
  split <;> rfl

theorem emitDiff_fst_sent (s : DState) (fargs : Str) :
    (emitDiff s fargs).1.current_tool_name_sent = s.current_tool_name_sent := by
  simp only [emitDiff]
  split <;> rfl

theorem inv_emitDiff {s : DState} {H : List ToolCallItem} (fargs : Str)
    (h : SessionInv s H) (h0 : 0 ≤ s.current_tool_id)
    (hsent : s.current_tool_name_sent = true)
    (hlt : s.current_tool_id.toNat < s.streamed_args_for_tool.length) :
    SessionInv (emitDiff s fargs).1 (H ++ (emitDiff s fargs).2) := by
  simp only [emitDiff]
  by_cases hde : (diffOf s.last_arguments fargs).isEmpty = true
  · rw [if_pos hde]
    simpa using h
  · rw [if_neg hde]
    set d := diffOf s.last_arguments fargs with hd
    refine ⟨h.hid, ?_, ?_, ?_, ?_, ?_, ?_, ?_, ?_⟩
    · intro hc
      have hc' : s.current_tool_id = -1 := hc
      exfalso; omega
    · intro hf
      have hf' : s.current_tool_name_sent = false := hf
      rw [hsent] at hf'
      exact absurd hf' (by decide)
    · intro it hit
      rcases List.mem_append.mp hit with h1 | h2
      · exact h.hidx it h1
      · have heq : it = ⟨s.current_tool_id, none, d⟩ := by simpa using h2
        subst heq
        exact ⟨h0, le_refl _⟩
    · intro k _ hf
      have hf' : s.current_tool_name_sent = false := hf
      rw [hsent] at hf'
      exact absurd hf' (by decide)
    · intro k hk _
      have hk' : (k : Int) = s.current_tool_id := hk
      obtain ⟨nm, rest, heq, hall, hcat⟩ := h.hcur1 k hk' hsent
      refine ⟨nm, rest ++ [⟨s.current_tool_id, none, d⟩], ?_, ?_, ?_⟩
      · show filterK k (H ++ [⟨s.current_tool_id, none, d⟩]) = _
        rw [filterK_append, heq, ← hk', filterK_single_eq, List.cons_append]
      · intro it hit
        rcases List.mem_append.mp hit with h1 | h2
        · exact hall it h1
        · have heq2 : it = ⟨s.current_tool_id, none, d⟩ := by simpa using h2
          subst heq2; rfl
      · show argParams (rest ++ [⟨s.current_tool_id, none, d⟩])
          = s.last_arguments ++ d
        rw [argParams_append, hcat, argParams_none_single]
    · intro k hk
      have hk' : (k : Int) < s.current_tool_id := hk
      obtain ⟨nm, rest, heq, hall⟩ := h.hpast k hk'
      refine ⟨nm, rest, ?_, hall⟩
      show filterK k (H ++ [⟨s.current_tool_id, none, d⟩]) = _
      rw [filterK_append, heq, filterK_single_ne k _ _ _ (by omega),
        List.append_nil]
    · intro k
      show argParams (filterK k (H ++ [⟨s.current_tool_id, none, d⟩]))
        = (s.streamed_args_for_tool.set s.current_tool_id.toNat
            ((s.streamed_args_for_tool.getD s.current_tool_id.toNat []) ++ d)
          ).getD k []
      rw [filterK_append, argParams_append]
      by_cases hk : (k : Int) = s.current_tool_id
      · have hkn : s.current_tool_id.toNat = k := by omega
        rw [← hk, filterK_single_eq, argParams_none_single, h.hstream k,
          Int.toNat_natCast, getD_set_eq [] _ _ _ (by omega)]
      · rw [filterK_single_ne k _ _ _ (by omega),
          getD_set_ne [] _ _ _ _ (by omega)]
        rw [show argParams [] = [] from rfl, List.append_nil]
        exact h.hstream k
    · show (s.streamed_args_for_tool.set s.current_tool_id.toNat _).length ≤ _
      rw [List.length_set]
      exact h.hlen

theorem inv_finalizeCall {s : DState} {H : List ToolCallItem}
    (cur fargs : Str) (calls : List ToolCallItem)
    (h : SessionInv s H) (h0 : 0 ≤ s.current_tool_id)
    (hsent : s.current_tool_name_sent = true) :
    SessionInv (finalizeCall s cur fargs calls).1 H := by
  refine ⟨?_, ?_, ?_, ?_, ?_, ?_, ?_, ?_, ?_⟩
  · show (-1 : Int) ≤ s.current_tool_id + 1
    have := h.hid; omega
  · intro hc
    have hc' : s.current_tool_id + 1 = -1 := hc
    exfalso; omega
  · intro _; rfl
  · intro it hit
    obtain ⟨a, b⟩ := h.hidx it hit
    refine ⟨a, ?_⟩
    show it.tool_index ≤ s.current_tool_id + 1
    omega
  · intro k hk _
    have hk' : (k : Int) = s.current_tool_id + 1 := hk
    exact filterK_eq_nil_of_bound (fun it hit => (h.hidx it hit).2) (by omega)
  · intro k _ hf
    have hf' : false = true := hf
    exact absurd hf' (by decide)
  · intro k hk
    have hk' : (k : Int) < s.current_tool_id + 1 := hk
    rcases eq_or_lt_of_le (by omega : (k : Int) ≤ s.current_tool_id) with
      heq | hlt
    · obtain ⟨nm, rest, a, b, _⟩ := h.hcur1 k heq hsent
      exact ⟨nm, rest, a, b⟩
    · exact h.hpast k hlt
  · intro k; exact h.hstream k
  · show s.streamed_args_for_tool.length ≤ (s.current_tool_id + 1 + 1).toNat
    have := h.hlen
    omega

theorem step_noCall_eq (s : DState) (t : Str)
    (hnc : (containsSub bot_token (s.buffer ++ t)
        && containsSub call_begin_token (s.buffer ++ t)) = false) :
    parse_streaming_increment s t =
      (if containsSub bot_token t || containsSub call_begin_token t
          || containsSub sep_token t then
        ({ s with buffer := s.buffer ++ t }, ⟨[], []⟩)
      else ({ s with buffer := [] }, ⟨filterTokens t, []⟩)) := by
  simp only [parse_streaming_increment, hnc, Bool.not_false, ite_true]

theorem step_noMatch_eq (s : DState) (t : Str)
    (hbot : containsSub bot_token (s.buffer ++ t) = true)
    (hcb : containsSub call_begin_token (s.buffer ++ t) = true)
    (hnone : searchCall (s.buffer ++ t) false = none) :
    parse_streaming_increment s t
      = ({ s with buffer := s.buffer ++ t }, ⟨[], []⟩) := by
  simp only [parse_streaming_increment, hbot, hcb, Bool.and_self,
    Bool.not_true, Bool.false_eq_true, ite_false, hnone]

theorem inv_step (s : DState) (H : List ToolCallItem) (t : Str)
    (h : SessionInv s H) :
    SessionInv (parse_streaming_increment s t).1
      (H ++ (parse_streaming_increment s t).2.calls) := by
  by_cases hbc : (containsSub bot_token (s.buffer ++ t)
      && containsSub call_begin_token (s.buffer ++ t)) = true
  · obtain ⟨hbot, hcb⟩ := Bool.and_eq_true_iff.mp hbc
    cases hm : searchCall (s.buffer ++ t) false with
    | none =>
      rw [step_noMatch_eq s t hbot hcb hm]
      simpa using inv_set_buffer h
    | some pr =>
      cases pr with
      | mk nameRaw argsRaw =>
        rw [step_match_eq s t nameRaw argsRaw hbot hcb hm]
        have hinv1 : SessionInv
            (padState (initIfNeeded { s with buffer := s.buffer ++ t })) H :=
          inv_padState (inv_initIfNeeded (inv_set_buffer h))
            (initIfNeeded_id_nonneg (inv_set_buffer h).hid)
        have h0 : 0 ≤ (padState (initIfNeeded
            { s with buffer := s.buffer ++ t })).current_tool_id :=
          initIfNeeded_id_nonneg (inv_set_buffer h).hid
        by_cases hns : (padState (initIfNeeded
            { s with buffer := s.buffer ++ t })).current_tool_name_sent = true
        · simp only [hns, Bool.not_true, Bool.false_eq_true, ite_false]
          have hinvd := inv_emitDiff (stripStr argsRaw) hinv1 h0 hns
            (padState_lt (initIfNeeded { s with buffer := s.buffer ++ t }))
          by_cases hfin : (is_complete_json (stripStr argsRaw)
              || containsSub call_end_token (s.buffer ++ t)) = true
          · simp only [hfin, ite_true]
            have hceq : (finalizeCall
                (emitDiff (padState (initIfNeeded
                  { s with buffer := s.buffer ++ t })) (stripStr argsRaw)).1
                (s.buffer ++ t) (stripStr argsRaw)
                (emitDiff (padState (initIfNeeded
                  { s with buffer := s.buffer ++ t })) (stripStr argsRaw)).2
                ).2.calls
                = (emitDiff (padState (initIfNeeded
                  { s with buffer := s.buffer ++ t })) (stripStr argsRaw)).2 :=
              rfl
            rw [hceq]
            refine inv_finalizeCall _ _ _ hinvd ?_ ?_
            · rw [emitDiff_fst_id]; exact h0
            · rw [emitDiff_fst_sent]; exact hns
          · have hfin' : (is_complete_json (stripStr argsRaw)
                || containsSub call_end_token (s.buffer ++ t)) = false := by
              cases hx : (is_complete_json (stripStr argsRaw)
                  || containsSub call_end_token (s.buffer ++ t))
              · rfl
              · exact absurd hx hfin
            simp only [hfin', Bool.false_eq_true, ite_false]
            exact hinvd
        · have hns' : (padState (initIfNeeded
              { s with buffer := s.buffer ++ t })).current_tool_name_sent
              = false := by
            cases hx : (padState (initIfNeeded
                { s with buffer := s.buffer ++ t })).current_tool_name_sent
            · rfl
            · exact absurd hx hns
          simp only [hns', Bool.not_false, ite_true]
          exact inv_emitName (stripStr nameRaw) hinv1 h0 hns'
  · have hnc : (containsSub bot_token (s.buffer ++ t)
        && containsSub call_begin_token (s.buffer ++ t)) = false := by
      cases hx : (containsSub bot_token (s.buffer ++ t)
          && containsSub call_begin_token (s.buffer ++ t))
      · rfl
      · exact absurd hx hbc
    rw [step_noCall_eq s t hnc]
    by_cases hg : (containsSub bot_token t || containsSub call_begin_token t
        || containsSub sep_token t) = true
    · simp only [hg, ite_true]
      simpa using inv_set_buffer h
    · have hg' : (containsSub bot_token t || containsSub call_begin_token t
          || containsSub sep_token t) = false := by
        cases hx : (containsSub bot_token t || containsSub call_begin_token t
            || containsSub sep_token t)
        · rfl
        · exact absurd hx hg
      simp only [hg', Bool.false_eq_true, ite_false]
      simpa using inv_set_buffer h

theorem inv_run : ∀ (fs : List Str) (s : DState) (H : List ToolCallItem),
    SessionInv s H →
    SessionInv (runStream s fs).1 (H ++ allCalls (runStream s fs).2) := by
  intro fs
  induction fs with
  | nil => intro s H h; simpa [runStream, allCalls] using h
  | cons f fs ih =>
    intro s H h
    have h2 := ih (parse_streaming_increment s f).1
      (H ++ (parse_streaming_increment s f).2.calls) (inv_step s H f h)
    simp only [runStream]
    rw [allCalls_cons, ← List.append_assoc]
    exact h2

/-! ### Claim theorems: streaming delta structure -/

/--
C6: for every streaming session (any fragment sequence from a fresh state)
and every call index, if any ToolCallItem was emitted for that index then
exactly one of them carries a non-null name, it is the first item emitted
for that index, it carries empty-string parameters, and every subsequent
item for the same index has a null name.
-/
theorem c6_name_delta_first (fs : List Str) (k : Nat) :
    filterK k (allCalls (runStream initState fs).2) = [] ∨
    ∃ nm rest, filterK k (allCalls (runStream initState fs).2)
        = ⟨(k : Int), some nm, []⟩ :: rest ∧ ∀ it ∈ rest, it.name = none := by
  have h := inv_run fs initState [] inv_init
  rw [List.nil_append] at h
  rcases lt_trichotomy ((k : Int))
      ((runStream initState fs).1.current_tool_id) with hlt | heq | hgt
  · right
    exact h.hpast k hlt
  · by_cases hns : (runStream initState fs).1.current_tool_name_sent = true
    · right
      obtain ⟨nm, rest, a, b, _⟩ := h.hcur1 k heq hns
      exact ⟨nm, rest, a, b⟩
    · left
      refine h.hcur0 k heq ?_
      cases hx : (runStream initState fs).1.current_tool_name_sent
      · rfl
      · exact absurd hx hns
  · left
    exact filterK_eq_nil_of_bound (fun it hit => (h.hidx it hit).2) hgt

/--
C5 counterexample: in the regression trace the finalized call 0 stores the
raw arguments text `"\x7b\"a\":"`, while the parameters of the name-null
deltas emitted for index 0 concatenate to
`"\x7b\"a\": <｜tool▁call\x7b\"a\":"` — the regression fallback duplicated
the `"\x7b\"a\":"` prefix, so the concatenation does not equal the
finalized call's arguments text.
-/
theorem c5_counterexample :
    (runStream initState [regFrag1, regFrag2, regFrag3]).1.prev_tool_call_arr
      = [("f".data, ArgsVal.raw "\x7b\"a\":".data)] ∧
    argParams (filterK 0
        (allCalls (runStream initState [regFrag1, regFrag2, regFrag3]).2))
      = "\x7b\"a\": <｜tool▁call\x7b\"a\":".data ∧
    "\x7b\"a\": <｜tool▁call\x7b\"a\":".data ≠ "\x7b\"a\":".data := by
  decide

/--
C5 amended: for every streaming session and call index, concatenating, in
emission order, the parameters of the name-null ToolCallItems emitted for
that index equals the session's `streamed_args_for_tool` record for that
index — the arguments text the detector actually streamed.  It equals the
finalized call's raw arguments text only when every observation extended
the previously streamed prefix; the regression fallback breaks that
equality (see the counterexample).
-/
theorem c5_amended_diff_concat (fs : List Str) (k : Nat) :
    argParams (filterK k (allCalls (runStream initState fs).2))
      = (runStream initState fs).1.streamed_args_for_tool.getD k [] := by
  have h := inv_run fs initState [] inv_init
  rw [List.nil_append] at h
  exact h.hstream k
